import Mathlib

/-!
Shallow embedding of `build/xtask/src/gha_prepare_artifacts.rs` from the
hubris repository: the attestation-to-artifact matching engine.

The embedding translates the two source functions `run` and
`hashes_from_sigstore_bundle`, together with the data structures they
deserialize into (`Bundle`, `BundleContent`, `BundleMessageSignature`,
`BundleMessageDigest`, `DsseEnvelope`, `InTotoStatement`, `InTotoSubject`,
`InTotoDigest`).

Modelling decisions:
- bytes are `Nat` values (meaningful when `< 256`), byte buffers are
  `List Nat`;
- the `HashMap<Vec<u8>, OsString>` is an association list with
  insert-replaces and remove-first semantics (`mapInsert`, `mapRemove`);
- calls into external crates are embedded as follows: `base64` and `hex`
  decoding are implemented directly (`base64Decode`, `hexDecode`), while
  `serde_json` parsing and `sha2` hashing are parameters of the model
  (`ExtCtx`), since their exact behaviour is outside this repository;
- filesystem effects are made explicit: the staging directory's final
  contents are the `Dest` value returned on success, and errors are the
  `RunError` value.
-/

namespace GhaPrepareArtifacts

/-- A byte buffer: the content of a file, a decoded digest, etc. -/
abbrev ByteSeq := List Nat

/-! ### Association-list model of `std::collections::HashMap` -/

/-- Model of `HashMap::insert`: replace the entry with the given key if
present, otherwise add the entry. -/
def mapInsert {α β : Type} [DecidableEq α] : List (α × β) → α → β → List (α × β)
  | [], k, v => [(k, v)]
  | (k2, v2) :: rest, k, v =>
    if k2 = k then (k, v) :: rest else (k2, v2) :: mapInsert rest k v

/-- Model of `HashMap::remove`: return the removed value (if any) together
with the remaining map. -/
def mapRemove {α β : Type} [DecidableEq α] : List (α × β) → α → Option β × List (α × β)
  | [], _ => (none, [])
  | (k2, v2) :: rest, k =>
    if k2 = k then (some v2, rest)
    else ((mapRemove rest k).1, (k2, v2) :: (mapRemove rest k).2)

/-- Model of `HashMap` lookup (used only in specifications). -/
def lookupA {α β : Type} [DecidableEq α] : List (α × β) → α → Option β
  | [], _ => none
  | (k2, v2) :: rest, k => if k2 = k then some v2 else lookupA rest k

/-! ### Base64 decoding (model of the `base64` crate, `BASE64_STANDARD`) -/

/-- Value of one character of the standard base64 alphabet. -/
def b64Val (c : Char) : Option Nat :=
  if 'A' ≤ c ∧ c ≤ 'Z' then some (c.toNat - 65)
  else if 'a' ≤ c ∧ c ≤ 'z' then some (c.toNat - 97 + 26)
  else if '0' ≤ c ∧ c ≤ '9' then some (c.toNat - 48 + 52)
  else if c = '+' then some 62
  else if c = '/' then some 63
  else none

/-- Decode base64 characters, four at a time, honouring canonical `=`
padding in the final group. -/
def b64DecodeGroups : List Char → Option ByteSeq
  | [] => some []
  | c1 :: c2 :: c3 :: c4 :: rest =>
    match b64Val c1, b64Val c2 with
    | some v1, some v2 =>
      if c3 = '=' then
        if c4 = '=' ∧ rest = [] ∧ v2 % 16 = 0 then
          some [v1 * 4 + v2 / 16]
        else none
      else
        match b64Val c3 with
        | some v3 =>
          if c4 = '=' then
            if rest = [] ∧ v3 % 4 = 0 then
              some [v1 * 4 + v2 / 16, v2 % 16 * 16 + v3 / 4]
            else none
          else
            match b64Val c4 with
            | some v4 =>
              (b64DecodeGroups rest).map
                (fun bs => (v1 * 4 + v2 / 16) :: (v2 % 16 * 16 + v3 / 4) :: (v3 % 4 * 64 + v4) :: bs)
            | none => none
        | none => none
    | _, _ => none
  | _ => none

/-- Model of `BASE64_STANDARD.decode`. -/
def base64Decode (s : String) : Option ByteSeq :=
  b64DecodeGroups s.data

/-! ### Hex encoding and decoding (model of the `hex` crate) -/

/-- Value of one hexadecimal digit character. -/
def hexVal (c : Char) : Option Nat :=
  if '0' ≤ c ∧ c ≤ '9' then some (c.toNat - 48)
  else if 'a' ≤ c ∧ c ≤ 'f' then some (c.toNat - 97 + 10)
  else if 'A' ≤ c ∧ c ≤ 'F' then some (c.toNat - 65 + 10)
  else none

/-- Decode hex characters, two at a time. -/
def hexDecodeChars : List Char → Option ByteSeq
  | [] => some []
  | c1 :: c2 :: rest =>
    match hexVal c1, hexVal c2 with
    | some hi, some lo => (hexDecodeChars rest).map (fun bs => (hi * 16 + lo) :: bs)
    | _, _ => none
  | [_] => none

/-- Model of `hex::decode`. -/
def hexDecode (s : String) : Option ByteSeq :=
  hexDecodeChars s.data

/-- Lowercase hexadecimal digit for a value below 16. -/
def hexDigit (n : Nat) : Char :=
  if n < 10 then Char.ofNat (48 + n) else Char.ofNat (87 + n)

/-- Hex-encode a byte buffer, two lowercase digits per byte. -/
def hexEncodeBytes : ByteSeq → List Char
  | [] => []
  | b :: rest => hexDigit (b / 16) :: hexDigit (b % 16) :: hexEncodeBytes rest

/-- Model of `hex::encode` (lowercase). -/
def hexEncode (bs : ByteSeq) : String :=
  String.mk (hexEncodeBytes bs)

/-! ### The deserialized attestation-record shapes (source structs) -/

/-- Source struct `BundleMessageDigest`. -/
structure BundleMessageDigest where
  algorithm : String
  digest : String
deriving DecidableEq, Repr

/-- Source struct `BundleMessageSignature`. -/
structure BundleMessageSignature where
  message_digest : BundleMessageDigest
deriving DecidableEq, Repr

/-- Source struct `DsseEnvelope`. -/
structure DsseEnvelope where
  payload : String
  payload_type : String
deriving DecidableEq, Repr

/-- Source enum `BundleContent` (tagged union of the two record variants). -/
inductive BundleContent where
  | MessageSignature (ms : BundleMessageSignature)
  | DsseEnvelope (dsse : DsseEnvelope)
deriving DecidableEq, Repr

/-- Source struct `Bundle`. -/
structure Bundle where
  media_type : String
  content : BundleContent
deriving DecidableEq, Repr

/-- Source struct `InTotoDigest`. -/
structure InTotoDigest where
  sha256 : String
deriving DecidableEq, Repr

/-- Source struct `InTotoSubject`. -/
structure InTotoSubject where
  digest : InTotoDigest
deriving DecidableEq, Repr

/-- Source struct `InTotoStatement`. -/
structure InTotoStatement where
  type_ : String
  subject : List InTotoSubject
deriving DecidableEq, Repr

/-! ### External collaborators as parameters -/

/-- The calls into external crates that the source makes: `serde_json`
parsing of the top-level `Bundle`, `serde_json` parsing of the decoded DSSE
payload into an `InTotoStatement`, and `sha2` hashing of a byte buffer.
These are parameters of the model; every theorem holds for all of them. -/
structure ExtCtx where
  parseBundle : String → Option Bundle
  parseInToto : ByteSeq → Option InTotoStatement
  sha256 : ByteSeq → ByteSeq

/-! ### The digest extractor (`hashes_from_sigstore_bundle`) -/

/-- Body of `hashes_from_sigstore_bundle` after the initial
`serde_json::from_str` succeeded, parameterized by the parser for the
embedded in-toto payload. -/
def hashesFromBundle (pi2 : ByteSeq → Option InTotoStatement) (b : Bundle) :
    Except String (List ByteSeq) :=
  if b.media_type ≠ "application/vnd.dev.sigstore.bundle+json;version=0.3"
      ∧ b.media_type ≠ "application/vnd.dev.sigstore.bundle.v0.3+json" then
    .error ("unsupported sigstore media type: " ++ b.media_type)
  else
    match b.content with
    | .MessageSignature ms =>
      if ms.message_digest.algorithm ≠ "SHA2_256" then
        .error "only sha256 message digests are supported"
      else
        match base64Decode ms.message_digest.digest with
        | none => .error "message digest is not base64"
        | some d => .ok [d]
    | .DsseEnvelope dsse =>
      if dsse.payload_type ≠ "application/vnd.in-toto+json" then
        .error ("unsupported dsse payload type: " ++ dsse.payload_type)
      else
        match base64Decode dsse.payload with
        | none => .error "dsse payload is not base64"
        | some payloadBytes =>
          match pi2 payloadBytes with
          | none => .error "failed to parse dsse payload"
          | some intoto =>
            if intoto.type_ ≠ "https://in-toto.io/Statement/v1" then
              .error ("unsupported in-toto type: " ++ intoto.type_)
            else
              match intoto.subject.mapM (fun s => hexDecode s.digest.sha256) with
              | none => .error "in-toto subject digest is not hex"
              | some hs => .ok hs

/-- Source function `hashes_from_sigstore_bundle`. -/
def hashes_from_sigstore_bundle (ctx : ExtCtx) (raw : String) :
    Except String (List ByteSeq) :=
  match ctx.parseBundle raw with
  | none => .error "can\x27t parse bundle"
  | some b => hashesFromBundle ctx.parseInToto b

/-! ### The reconciler (`run`) -/

/-- One artifact known at the start of the run: its staged file name and the
byte content of the file on disk. -/
structure Artifact where
  name : String
  content : ByteSeq
deriving DecidableEq, Repr

/-- State of the reconciliation loop: the Pending Set (`hashes` in the
source) and the companion files written so far (file name, line written). -/
structure RecState where
  pending : List (ByteSeq × String)
  sigstores : List (String × String)
deriving DecidableEq, Repr

/-- Final contents of the staging directory on success: the copied artifact
files and the `.sigstore.json` companion files. -/
structure Dest where
  artifacts : List (String × ByteSeq)
  sigstores : List (String × String)
deriving DecidableEq, Repr

/-- Failures of `run` (the two `bail!` outcomes at the reconciler level):
an extraction error propagated by `?`, or the final unmatched-artifacts
report carrying the values of the Pending Set. -/
inductive RunError where
  | extraction (msg : String)
  | notAttested (names : List String)
deriving DecidableEq, Repr

/-- The first loop of `run` (lines 52-78): hash every artifact and build the
Pending Set with `HashMap::insert`. -/
def buildHashes (sha : ByteSeq → ByteSeq) (artifacts : List Artifact) :
    List (ByteSeq × String) :=
  artifacts.foldl (fun m a => mapInsert m (sha a.content) a.name) []

/-- The body of the inner `for hash in ...` loop (lines 90-103): on a hit,
remove the entry and write the companion file; on a miss, do nothing. -/
def processHash (st : RecState) (line : String) (h : ByteSeq) : RecState :=
  match mapRemove st.pending h with
  | (some fileName, pending2) =>
    { pending := pending2
      sigstores := st.sigstores ++ [(fileName ++ ".sigstore.json", line)] }
  | (none, _) => st

/-- All hashes extracted from one record line, processed in order. -/
def processRecordHashes (st : RecState) (line : String) (hs : List ByteSeq) : RecState :=
  hs.foldl (fun s h => processHash s line h) st

/-- Split a character sequence at newline characters, as `str::split('\n')`
does (n separators give n+1 pieces, empty pieces included). -/
def splitLines : List Char → List (List Char)
  | [] => [[]]
  | c :: rest =>
    if c = '\n' then [] :: splitLines rest
    else
      match splitLines rest with
      | l :: ls => (c :: l) :: ls
      | [] => [[c]]

/-- Remove leading and trailing whitespace characters, as `str::trim` does. -/
def trimChars (cs : List Char) : List Char :=
  ((cs.dropWhile Char.isWhitespace).reverse.dropWhile Char.isWhitespace).reverse

/-- The lines of the attestation blob as the source's loop sees them:
`attestations.split('\n').map(str::trim)`. -/
def attLines (s : String) : List String :=
  (splitLines s.data).map (fun cs => String.mk (trimChars cs))

/-- The per-line loop of `run` (lines 86-104): skip empty (trimmed) lines,
extract the digests of each record (any failure aborts), and match each
digest against the Pending Set. -/
def processLines (ctx : ExtCtx) : RecState → List String → Except String RecState
  | st, [] => .ok st
  | st, line :: rest =>
    if line = "" then processLines ctx st rest
    else
      match hashes_from_sigstore_bundle ctx line with
      | .error e => .error e
      | .ok hs => processLines ctx (processRecordHashes st line hs) rest

/-- Source function `run`: stage every artifact, and when an attestation
blob is supplied, reconcile it against the artifacts' digests; fail if any
artifact is left unmatched. -/
def run (ctx : ExtCtx) (artifacts : List Artifact) (attestations : Option String) :
    Except RunError Dest :=
  let copied := artifacts.map (fun a => (a.name, a.content))
  let pending0 := buildHashes ctx.sha256 artifacts
  match attestations with
  | none => .ok { artifacts := copied, sigstores := [] }
  | some att =>
    match processLines ctx { pending := pending0, sigstores := [] } (attLines att) with
    | .error e => .error (.extraction e)
    | .ok st =>
      if st.pending = [] then .ok { artifacts := copied, sigstores := st.sigstores }
      else .error (.notAttested (st.pending.map Prod.snd))


/-! ### Lemmas about the association-list map operations -/

/-- The keys of a map are pairwise distinct. This invariant holds of every
map the source builds (it models a `HashMap`). -/
def keysNodup {α β : Type} (m : List (α × β)) : Prop :=
  (m.map Prod.fst).Nodup

theorem mapRemove_fst {α β : Type} [DecidableEq α] (m : List (α × β)) (k : α) :
    (mapRemove m k).1 = lookupA m k := by
  induction m with
  | nil => rfl
  | cons p rest ih =>
    obtain ⟨k2, v2⟩ := p
    by_cases h : k2 = k
    · simp only [mapRemove, lookupA, if_pos h]
    · simp only [mapRemove, lookupA, if_neg h, ih]

theorem mapRemove_snd_sublist {α β : Type} [DecidableEq α] (m : List (α × β)) (k : α) :
    List.Sublist (mapRemove m k).2 m := by
  induction m with
  | nil => simp [mapRemove]
  | cons p rest ih =>
    obtain ⟨k2, v2⟩ := p
    by_cases h : k2 = k
    · simp only [mapRemove, if_pos h]
      exact List.sublist_cons_self _ _
    · simp only [mapRemove, if_neg h]
      exact ih.cons₂ _

theorem mapRemove_some_mem {α β : Type} [DecidableEq α] {m : List (α × β)} {k : α} {v : β}
    (h : (mapRemove m k).1 = some v) : (k, v) ∈ m := by
  induction m with
  | nil => simp [mapRemove] at h
  | cons p rest ih =>
    obtain ⟨k2, v2⟩ := p
    by_cases hk : k2 = k
    · simp only [mapRemove, if_pos hk, Option.some.injEq] at h
      subst hk
      rw [h]
      exact List.mem_cons_self _ _
    · simp only [mapRemove, if_neg hk] at h
      exact List.mem_cons_of_mem _ (ih h)

theorem lookupA_none_iff {α β : Type} [DecidableEq α] {m : List (α × β)} {k : α} :
    lookupA m k = none ↔ k ∉ m.map Prod.fst := by
  induction m with
  | nil => simp [lookupA]
  | cons p rest ih =>
    obtain ⟨k2, v2⟩ := p
    by_cases hk : k2 = k
    · subst hk
      simp [lookupA]
    · simp only [lookupA, if_neg hk, List.map_cons, List.mem_cons, not_or, ih]
      constructor
      · intro h
        exact ⟨fun e => hk e.symm, h⟩
      · intro h
        exact h.2

theorem lookupA_mem {α β : Type} [DecidableEq α] {m : List (α × β)} {k : α} {v : β}
    (h : keysNodup m) (hm : (k, v) ∈ m) : lookupA m k = some v := by
  induction m with
  | nil => simp at hm
  | cons p rest ih =>
    obtain ⟨k2, v2⟩ := p
    rw [keysNodup, List.map_cons, List.nodup_cons] at h
    by_cases hk : k2 = k
    · subst hk
      rcases List.mem_cons.mp hm with ha | ha
      · rw [Prod.mk.injEq] at ha
        simp [lookupA, ha.2]
      · exact absurd (List.mem_map_of_mem Prod.fst ha) h.1
    · have hm2 : (k, v) ∈ rest := by
        rcases List.mem_cons.mp hm with ha | ha
        · rw [Prod.mk.injEq] at ha
          exact absurd ha.1.symm hk
        · exact ha
      simp only [lookupA, if_neg hk]
      exact ih h.2 hm2

theorem mapRemove_snd_mem_of {α β : Type} [DecidableEq α] {m : List (α × β)} {k : α} {p : α × β}
    (hm : p ∈ m) (hne : p.1 ≠ k) : p ∈ (mapRemove m k).2 := by
  induction m with
  | nil => simp at hm
  | cons q rest ih =>
    obtain ⟨k2, v2⟩ := q
    by_cases hk : k2 = k
    · simp only [mapRemove, if_pos hk]
      rcases List.mem_cons.mp hm with ha | ha
      · exfalso
        apply hne
        rw [ha, hk]
      · exact ha
    · simp only [mapRemove, if_neg hk]
      rcases List.mem_cons.mp hm with ha | ha
      · rw [ha]
        exact List.mem_cons_self _ _
      · exact List.mem_cons_of_mem _ (ih ha)

theorem mapRemove_snd_lookup_none {α β : Type} [DecidableEq α] {m : List (α × β)} {k : α}
    (h : keysNodup m) : lookupA (mapRemove m k).2 k = none := by
  induction m with
  | nil => simp [mapRemove, lookupA]
  | cons q rest ih =>
    obtain ⟨k2, v2⟩ := q
    rw [keysNodup, List.map_cons, List.nodup_cons] at h
    by_cases hk : k2 = k
    · subst hk
      simp only [mapRemove, if_pos rfl]
      exact lookupA_none_iff.mpr h.1
    · simp only [mapRemove, if_neg hk, lookupA, if_neg hk]
      exact ih h.2

theorem mem_mapInsert {α β : Type} [DecidableEq α] {m : List (α × β)} {k : α} {v : β} {p : α × β}
    (h : p ∈ mapInsert m k v) : p ∈ m ∨ p = (k, v) := by
  induction m with
  | nil =>
    simp only [mapInsert, List.mem_singleton] at h
    exact Or.inr h
  | cons q rest ih =>
    obtain ⟨k2, v2⟩ := q
    by_cases hk : k2 = k
    · simp only [mapInsert, if_pos hk, List.mem_cons] at h
      rcases h with h | h
      · exact Or.inr h
      · exact Or.inl (List.mem_cons_of_mem _ h)
    · simp only [mapInsert, if_neg hk, List.mem_cons] at h
      rcases h with h | h
      · left
        rw [h]
        exact List.mem_cons_self _ _
      · rcases ih h with h2 | h2
        · exact Or.inl (List.mem_cons_of_mem _ h2)
        · exact Or.inr h2

theorem mapInsert_keys_mem {α β : Type} [DecidableEq α] {m : List (α × β)} {k : α} {v : β} {x : α}
    (h : x ∈ (mapInsert m k v).map Prod.fst) : x = k ∨ x ∈ m.map Prod.fst := by
  rw [List.mem_map] at h
  obtain ⟨b, hb, hx⟩ := h
  rcases mem_mapInsert hb with h2 | h2
  · right
    rw [← hx]
    exact List.mem_map_of_mem Prod.fst h2
  · left
    rw [← hx, h2]

theorem keysNodup_mapInsert {α β : Type} [DecidableEq α] {m : List (α × β)} (k : α) (v : β)
    (h : keysNodup m) : keysNodup (mapInsert m k v) := by
  induction m with
  | nil => simp [keysNodup, mapInsert]
  | cons q rest ih =>
    obtain ⟨k2, v2⟩ := q
    rw [keysNodup, List.map_cons, List.nodup_cons] at h
    by_cases hk : k2 = k
    · subst hk
      have he : mapInsert ((k2, v2) :: rest) k2 v = (k2, v) :: rest := by
        simp [mapInsert]
      rw [keysNodup, he, List.map_cons, List.nodup_cons]
      exact h
    · rw [keysNodup]
      simp only [mapInsert, if_neg hk, List.map_cons, List.nodup_cons]
      constructor
      · intro hx
        rcases mapInsert_keys_mem hx with h3 | h3
        · exact hk h3
        · exact h.1 h3
      · exact ih h.2

theorem keysNodup_mem_unique {α β : Type} {m : List (α × β)} {k : α} {v v2 : β}
    (h : keysNodup m) (h1 : (k, v) ∈ m) (h2 : (k, v2) ∈ m) : v = v2 := by
  induction m with
  | nil => simp at h1
  | cons q rest ih =>
    obtain ⟨k3, v3⟩ := q
    rw [keysNodup, List.map_cons, List.nodup_cons] at h
    rcases List.mem_cons.mp h1 with ha | ha <;> rcases List.mem_cons.mp h2 with hb | hb
    · rw [Prod.mk.injEq] at ha hb
      rw [ha.2, hb.2]
    · exfalso
      rw [Prod.mk.injEq] at ha
      have h3 : (k3, v2) ∈ rest := by rw [← ha.1]; exact hb
      have h4 : k3 ∈ List.map Prod.fst rest := List.mem_map_of_mem Prod.fst h3
      exact h.1 h4
    · exfalso
      rw [Prod.mk.injEq] at hb
      have h3 : (k3, v) ∈ rest := by rw [← hb.1]; exact ha
      have h4 : k3 ∈ List.map Prod.fst rest := List.mem_map_of_mem Prod.fst h3
      exact h.1 h4
    · exact ih h.2 ha hb

theorem keysNodup_of_sublist {α β : Type} {m m2 : List (α × β)}
    (hs : List.Sublist m2 m) (h : keysNodup m) : keysNodup m2 :=
  h.sublist (hs.map Prod.fst)

/-! ### Lemmas about the Pending Set construction -/

theorem mem_foldl_mapInsert (sha : ByteSeq → ByteSeq) (arts : List Artifact)
    (m0 : List (ByteSeq × String)) (p : ByteSeq × String)
    (h : p ∈ arts.foldl (fun m a => mapInsert m (sha a.content) a.name) m0) :
    p ∈ m0 ∨ ∃ a ∈ arts, p.1 = sha a.content ∧ p.2 = a.name := by
  induction arts generalizing m0 with
  | nil =>
    simp only [List.foldl_nil] at h
    exact Or.inl h
  | cons a rest ih =>
    simp only [List.foldl_cons] at h
    rcases ih (mapInsert m0 (sha a.content) a.name) h with h2 | h2
    · rcases mem_mapInsert h2 with h3 | h3
      · exact Or.inl h3
      · right
        exact ⟨a, List.mem_cons_self a rest, by rw [h3], by rw [h3]⟩
    · right
      obtain ⟨a2, ha2, hp⟩ := h2
      exact ⟨a2, List.mem_cons_of_mem _ ha2, hp⟩

theorem mem_buildHashes {sha : ByteSeq → ByteSeq} {arts : List Artifact} {p : ByteSeq × String}
    (h : p ∈ buildHashes sha arts) :
    ∃ a ∈ arts, p.1 = sha a.content ∧ p.2 = a.name := by
  rcases mem_foldl_mapInsert sha arts [] p h with h2 | h2
  · simp at h2
  · exact h2

theorem buildHashes_keysNodup (sha : ByteSeq → ByteSeq) (arts : List Artifact) :
    keysNodup (buildHashes sha arts) := by
  have general : ∀ (l : List Artifact) (m0 : List (ByteSeq × String)), keysNodup m0 →
      keysNodup (l.foldl (fun m a => mapInsert m (sha a.content) a.name) m0) := by
    intro l
    induction l with
    | nil => intro m0 h; simpa using h
    | cons a rest ih =>
      intro m0 h
      simp only [List.foldl_cons]
      exact ih _ (keysNodup_mapInsert _ _ h)
  exact general arts [] (by simp [keysNodup])

/-! ### Lemmas about one step of the reconciliation loop -/

theorem processHash_lookup_some (st : RecState) (line : String) (h : ByteSeq) (v : String)
    (hl : lookupA st.pending h = some v) :
    processHash st line h =
      { pending := (mapRemove st.pending h).2
        sigstores := st.sigstores ++ [(v ++ ".sigstore.json", line)] } := by
  have h1 : (mapRemove st.pending h).1 = some v := by rw [mapRemove_fst]; exact hl
  unfold processHash
  rcases he : mapRemove st.pending h with ⟨f, m2⟩
  rw [he] at h1
  simp only at h1
  subst h1
  rfl

theorem processHash_lookup_none (st : RecState) (line : String) (h : ByteSeq)
    (hl : lookupA st.pending h = none) : processHash st line h = st := by
  have h1 : (mapRemove st.pending h).1 = none := by rw [mapRemove_fst]; exact hl
  unfold processHash
  rcases he : mapRemove st.pending h with ⟨f, m2⟩
  rw [he] at h1
  simp only at h1
  subst h1
  rfl

theorem processHash_pending_sublist (st : RecState) (line : String) (h : ByteSeq) :
    List.Sublist (processHash st line h).pending st.pending := by
  unfold processHash
  rcases he : mapRemove st.pending h with ⟨f, m2⟩
  have hs := mapRemove_snd_sublist st.pending h
  rw [he] at hs
  cases f with
  | none => exact List.Sublist.refl _
  | some v => exact hs

theorem processHash_sigstores_cases (st : RecState) (line : String) (h : ByteSeq) :
    (processHash st line h).sigstores = st.sigstores ∨
    ∃ v, (h, v) ∈ st.pending ∧
      (processHash st line h).sigstores = st.sigstores ++ [(v ++ ".sigstore.json", line)] := by
  unfold processHash
  rcases he : mapRemove st.pending h with ⟨f, m2⟩
  cases f with
  | none => exact Or.inl rfl
  | some v =>
    right
    refine ⟨v, ?_, rfl⟩
    apply mapRemove_some_mem (m := st.pending) (k := h)
    rw [he]

theorem processRecordHashes_nil (st : RecState) (line : String) :
    processRecordHashes st line [] = st := rfl

theorem processRecordHashes_cons (st : RecState) (line : String) (h : ByteSeq)
    (hs : List ByteSeq) :
    processRecordHashes st line (h :: hs) = processRecordHashes (processHash st line h) line hs :=
  rfl

theorem processRecordHashes_pending_sublist (line : String) (hs : List ByteSeq) :
    ∀ st : RecState, List.Sublist (processRecordHashes st line hs).pending st.pending := by
  induction hs with
  | nil => intro st; exact List.Sublist.refl _
  | cons h rest ih =>
    intro st
    rw [processRecordHashes_cons]
    exact (ih _).trans (processHash_pending_sublist st line h)

theorem processRecordHashes_sigstores_mono (line : String) (hs : List ByteSeq) :
    ∀ (st : RecState) (p : String × String), p ∈ st.sigstores →
      p ∈ (processRecordHashes st line hs).sigstores := by
  induction hs with
  | nil => intro st p hp; exact hp
  | cons h rest ih =>
    intro st p hp
    rw [processRecordHashes_cons]
    apply ih
    rcases processHash_sigstores_cases st line h with hc | ⟨v, _, hc⟩
    · rw [hc]; exact hp
    · rw [hc]; exact List.mem_append_left _ hp

theorem processRecordHashes_sigstores_from (line : String) (hs : List ByteSeq) :
    ∀ (st : RecState) (p : String × String), p ∈ (processRecordHashes st line hs).sigstores →
      p ∈ st.sigstores ∨ ∃ kv ∈ st.pending, kv.1 ∈ hs ∧ p = (kv.2 ++ ".sigstore.json", line) := by
  induction hs with
  | nil => intro st p hp; exact Or.inl hp
  | cons h rest ih =>
    intro st p hp
    rw [processRecordHashes_cons] at hp
    rcases ih _ p hp with h2 | ⟨kv, hkv, hmem, h2⟩
    · rcases processHash_sigstores_cases st line h with hc | ⟨v, hv, hc⟩
      · rw [hc] at h2
        exact Or.inl h2
      · rw [hc] at h2
        rcases List.mem_append.mp h2 with h3 | h3
        · exact Or.inl h3
        · right
          refine ⟨(h, v), hv, List.mem_cons_self _ _, ?_⟩
          simpa using h3
    · right
      exact ⟨kv, (processHash_pending_sublist st line h).mem hkv,
        List.mem_cons_of_mem _ hmem, h2⟩

/-! ### Lemmas about the per-line loop -/

theorem processLines_pending_sublist (ctx : ExtCtx) (lines : List String) :
    ∀ st st2, processLines ctx st lines = .ok st2 →
      List.Sublist st2.pending st.pending := by
  induction lines with
  | nil =>
    intro st st2 hp
    simp only [processLines] at hp
    cases hp
    exact List.Sublist.refl _
  | cons line rest ih =>
    intro st st2 hp
    simp only [processLines] at hp
    by_cases he : line = ""
    · rw [if_pos he] at hp
      exact ih st st2 hp
    · rw [if_neg he] at hp
      cases hb : hashes_from_sigstore_bundle ctx line with
      | error e => rw [hb] at hp; cases hp
      | ok hs2 =>
        rw [hb] at hp
        exact (ih _ st2 hp).trans (processRecordHashes_pending_sublist line hs2 st)

theorem processLines_sigstores_from (ctx : ExtCtx) (lines : List String) :
    ∀ st st2, processLines ctx st lines = .ok st2 →
      ∀ p ∈ st2.sigstores, p ∈ st.sigstores ∨
        ∃ kv ∈ st.pending, ∃ line ∈ lines, line ≠ "" ∧
          (∃ hs, hashes_from_sigstore_bundle ctx line = .ok hs ∧ kv.1 ∈ hs) ∧
          p = (kv.2 ++ ".sigstore.json", line) := by
  induction lines with
  | nil =>
    intro st st2 hp p hps
    simp only [processLines] at hp
    cases hp
    exact Or.inl hps
  | cons line rest ih =>
    intro st st2 hp p hps
    simp only [processLines] at hp
    by_cases he : line = ""
    · rw [if_pos he] at hp
      rcases ih st st2 hp p hps with h2 | ⟨kv, hkv, l2, hl2, hne, hex, hp2⟩
      · exact Or.inl h2
      · exact Or.inr ⟨kv, hkv, l2, List.mem_cons_of_mem _ hl2, hne, hex, hp2⟩
    · rw [if_neg he] at hp
      cases hb : hashes_from_sigstore_bundle ctx line with
      | error e => rw [hb] at hp; cases hp
      | ok hs2 =>
        rw [hb] at hp
        rcases ih _ st2 hp p hps with h2 | ⟨kv, hkv, l2, hl2, hne, hex, hp2⟩
        · rcases processRecordHashes_sigstores_from line hs2 st p h2 with
            h3 | ⟨kv, hkv, hmem, h3⟩
          · exact Or.inl h3
          · exact Or.inr ⟨kv, hkv, line, List.mem_cons_self _ _, he, ⟨hs2, hb, hmem⟩, h3⟩
        · have hkv2 := (processRecordHashes_pending_sublist line hs2 st).mem hkv
          exact Or.inr ⟨kv, hkv2, l2, List.mem_cons_of_mem _ hl2, hne, hex, hp2⟩

/-! ### Hex round-trip -/

theorem hexVal_hexDigit (n : Nat) (h : n < 16) : hexVal (hexDigit n) = some n := by
  interval_cases n <;> decide

theorem hexDecodeChars_hexEncodeBytes (bs : ByteSeq) (h : ∀ b ∈ bs, b < 256) :
    hexDecodeChars (hexEncodeBytes bs) = some bs := by
  induction bs with
  | nil => rfl
  | cons b rest ih =>
    have hb : b < 256 := h b (List.mem_cons_self _ _)
    have h1 : b / 16 < 16 := by omega
    have h2 : b % 16 < 16 := by omega
    have h3 : b / 16 * 16 + b % 16 = b := by omega
    have ih2 := ih fun x hx => h x (List.mem_cons_of_mem _ hx)
    simp [hexEncodeBytes, hexDecodeChars, hexVal_hexDigit _ h1, hexVal_hexDigit _ h2, ih2, h3]

theorem hexDecode_hexEncode (bs : ByteSeq) (h : ∀ b ∈ bs, b < 256) :
    hexDecode (hexEncode bs) = some bs :=
  hexDecodeChars_hexEncodeBytes bs h

/-! ### Claim theorems -/

/-- C4: when attestation input is omitted the run succeeds, every artifact
is copied into the output directory byte-for-byte identical to the source,
matching is skipped entirely, and no `.sigstore.json` companion files are
produced. -/
theorem run_without_attestations_stages_all (ctx : ExtCtx) (arts : List Artifact) :
    run ctx arts none =
      .ok { artifacts := arts.map (fun a => (a.name, a.content)), sigstores := [] } := rfl

/-- C5: a record whose media type is neither of the two accepted values
fails with an error identifying the unrecognized media-type string, for
every record content and every payload parser (so no further parsing of the
content is ever attempted). -/
theorem unsupported_media_type_hard_error (pi2 : ByteSeq → Option InTotoStatement)
    (mt : String) (c : BundleContent)
    (h1 : mt ≠ "application/vnd.dev.sigstore.bundle+json;version=0.3")
    (h2 : mt ≠ "application/vnd.dev.sigstore.bundle.v0.3+json") :
    hashesFromBundle pi2 { media_type := mt, content := c } =
      .error ("unsupported sigstore media type: " ++ mt) := by
  unfold hashesFromBundle
  rw [if_pos ⟨h1, h2⟩]

/-- Witness for C5 at the spec's own example media type. -/
theorem unsupported_media_type_hard_error_witness :
    hashesFromBundle (fun _ => none)
      { media_type := "application/vnd.dev.sigstore.bundle+json;version=9.9"
        content := .MessageSignature
          { message_digest := { algorithm := "SHA2_256", digest := "AQ==" } } } =
      .error ("unsupported sigstore media type: " ++
        "application/vnd.dev.sigstore.bundle+json;version=9.9") :=
  unsupported_media_type_hard_error _ _ _ (by decide) (by decide)

/-- C6 counterexample: for a Message-Signature record with algorithm
`SHA2_512`, extraction fails with the fixed message `only sha256 message
digests are supported`, which does not contain the offending algorithm
value, contrary to the claim that the error names it. -/
theorem unsupported_algorithm_error_message_cex :
    hashesFromBundle (fun _ => none)
      { media_type := "application/vnd.dev.sigstore.bundle+json;version=0.3"
        content := .MessageSignature
          { message_digest := { algorithm := "SHA2_512", digest := "AQ==" } } } =
      .error "only sha256 message digests are supported"
    ∧ ¬ List.IsInfix ("SHA2_512" : String).data
        ("only sha256 message digests are supported" : String).data := by
  constructor
  · rfl
  · decide

/-- C6 as amended: a Message-Signature record whose digest-algorithm name
is not `SHA2_256` is a hard extraction failure, with the fixed error message
`only sha256 message digests are supported` (the message does not include
the algorithm value found in the record). -/
theorem unsupported_algorithm_fixed_error (pi2 : ByteSeq → Option InTotoStatement)
    (mt : String) (ms : BundleMessageSignature)
    (hmt : mt = "application/vnd.dev.sigstore.bundle+json;version=0.3" ∨
           mt = "application/vnd.dev.sigstore.bundle.v0.3+json")
    (halg : ms.message_digest.algorithm ≠ "SHA2_256") :
    hashesFromBundle pi2 { media_type := mt, content := .MessageSignature ms } =
      .error "only sha256 message digests are supported" := by
  rcases hmt with h | h <;> subst h <;> simp +decide [hashesFromBundle, halg]

/-- Witness for the amended C6. -/
theorem unsupported_algorithm_fixed_error_witness :
    hashesFromBundle (fun _ => none)
      { media_type := "application/vnd.dev.sigstore.bundle.v0.3+json"
        content := .MessageSignature
          { message_digest := { algorithm := "SHA1", digest := "AQ==" } } } =
      .error "only sha256 message digests are supported" :=
  unsupported_algorithm_fixed_error _ _ _ (Or.inr rfl) (by decide)

/-- C7: embedding the hex encoding of a hash value as the in-toto subject
digest of a well-formed Envelope record and extracting it yields exactly the
raw hash bytes back (hex decoding inverts hex encoding), for every hash
function and every byte buffer. -/
theorem sha256_hex_roundtrip_through_extractor (sha : ByteSeq → ByteSeq)
    (pi2 : ByteSeq → Option InTotoStatement) (buf pb : ByteSeq)
    (dsse : DsseEnvelope) (stmt : InTotoStatement)
    (hbytes : ∀ x ∈ sha buf, x < 256)
    (hpt : dsse.payload_type = "application/vnd.in-toto+json")
    (hb64 : base64Decode dsse.payload = some pb)
    (hpi : pi2 pb = some stmt)
    (hty : stmt.type_ = "https://in-toto.io/Statement/v1")
    (hsub : stmt.subject = [{ digest := { sha256 := hexEncode (sha buf) } }]) :
    hashesFromBundle pi2
      { media_type := "application/vnd.dev.sigstore.bundle+json;version=0.3"
        content := .DsseEnvelope dsse } = .ok [sha buf] := by
  have hhex := hexDecode_hexEncode (sha buf) hbytes
  simp +decide [hashesFromBundle, hpt, hb64, hpi, hty, hsub, hhex, List.mapM.loop]

/-- Witness for C7 at a concrete two-byte digest. -/
theorem sha256_hex_roundtrip_through_extractor_witness :
    hashesFromBundle
      (fun _ => some { type_ := "https://in-toto.io/Statement/v1"
                       subject := [{ digest := { sha256 := "00ff" } }] })
      { media_type := "application/vnd.dev.sigstore.bundle+json;version=0.3"
        content := .DsseEnvelope
          { payload := "", payload_type := "application/vnd.in-toto+json" } } =
      .ok [[0, 255]] :=
  sha256_hex_roundtrip_through_extractor (fun _ => [0, 255]) _ [] [] _ _
    (by decide) rfl rfl rfl rfl (by decide)

/-- C1: with attestation input supplied, if the Pending Set is non-empty
after all lines are processed the run fails with the hard error enumerating
every unmatched artifact name, and the run succeeds only if the Pending Set
ended up empty. -/
theorem run_unmatched_artifacts_hard_error (ctx : ExtCtx) (arts : List Artifact)
    (att : String) (st : RecState)
    (hp : processLines ctx { pending := buildHashes ctx.sha256 arts, sigstores := [] }
        (attLines att) = .ok st) :
    (st.pending ≠ [] →
      run ctx arts (some att) = .error (.notAttested (st.pending.map Prod.snd)))
    ∧ ∀ d, run ctx arts (some att) = .ok d → st.pending = [] := by
  have hrun : run ctx arts (some att) =
      if st.pending = [] then
        .ok { artifacts := arts.map (fun a => (a.name, a.content)), sigstores := st.sigstores }
      else .error (.notAttested (st.pending.map Prod.snd)) := by
    simp only [run]
    rw [hp]
  constructor
  · intro hne
    rw [hrun, if_neg hne]
  · intro d hd
    rw [hrun] at hd
    by_cases hpe : st.pending = []
    · exact hpe
    · rw [if_neg hpe] at hd
      cases hd

/-- Witness for C1: one artifact, empty attestation blob, hard error naming
the artifact. -/
theorem run_unmatched_artifacts_hard_error_witness :
    run { parseBundle := fun _ => none, parseInToto := fun _ => none, sha256 := fun _ => [7] }
      [{ name := "a.zip", content := [] }] (some "") =
      .error (.notAttested ["a.zip"]) := by
  have h := run_unmatched_artifacts_hard_error
    { parseBundle := fun _ => none, parseInToto := fun _ => none, sha256 := fun _ => [7] }
    [{ name := "a.zip", content := [] }] ""
    { pending := [([7], "a.zip")], sigstores := [] } rfl
  exact h.1 (by decide)

/-- C10: extraction imposes no length check on decoded digests (a
Message-Signature digest of any decoded length extracts as a one-element
set), every Pending Set key is an output of the hash function (so 32 bytes
long when the hash always produces 32 bytes), and a digest whose length is
not 32 can then never match: the reconciliation step leaves the state
unchanged, silently, with no error. -/
theorem unchecked_digest_length_silently_ignored (ctx : ExtCtx) (arts : List Artifact)
    (ms : BundleMessageSignature) (d : ByteSeq) (line : String)
    (hsha : ∀ bs : ByteSeq, (ctx.sha256 bs).length = 32)
    (halg : ms.message_digest.algorithm = "SHA2_256")
    (hdec : base64Decode ms.message_digest.digest = some d)
    (hlen : d.length ≠ 32) :
    hashesFromBundle ctx.parseInToto
      { media_type := "application/vnd.dev.sigstore.bundle+json;version=0.3"
        content := .MessageSignature ms } = .ok [d]
    ∧ (∀ p ∈ buildHashes ctx.sha256 arts, p.1.length = 32)
    ∧ ∀ st : RecState, (∀ p ∈ st.pending, p.1.length = 32) →
        processHash st line d = st := by
  refine ⟨?_, ?_, ?_⟩
  · simp +decide [hashesFromBundle, halg, hdec]
  · intro p hp
    obtain ⟨a, _, h1, _⟩ := mem_buildHashes hp
    rw [h1, hsha]
  · intro st hst
    apply processHash_lookup_none
    apply lookupA_none_iff.mpr
    intro hmem
    rw [List.mem_map] at hmem
    obtain ⟨p, hp, hp1⟩ := hmem
    exact hlen (by rw [← hp1, hst p hp])

/-- Witness for C10: a three-byte digest extracts fine and is then ignored
by the matching step. -/
theorem unchecked_digest_length_silently_ignored_witness :
    hashesFromBundle (fun _ => none)
      { media_type := "application/vnd.dev.sigstore.bundle+json;version=0.3"
        content := .MessageSignature
          { message_digest := { algorithm := "SHA2_256", digest := "AQID" } } } =
      .ok [[1, 2, 3]]
    ∧ processHash { pending := [(List.replicate 32 0, "a.zip")], sigstores := [] } "x" [1, 2, 3] =
        { pending := [(List.replicate 32 0, "a.zip")], sigstores := [] } := by
  have h := unchecked_digest_length_silently_ignored
    { parseBundle := fun _ => none, parseInToto := fun _ => none
      sha256 := fun _ => List.replicate 32 0 }
    [] { message_digest := { algorithm := "SHA2_256", digest := "AQID" } } [1, 2, 3] "x"
    (fun _ => rfl) rfl (by decide) (by decide)
  exact ⟨h.1, h.2.2 _ (by decide)⟩

/-- C2 counterexample: the attestation blob consists of the single line
`  bundle1` (with leading whitespace); the run succeeds and the companion
file contains `bundle1`, the trimmed line, not the exact bytes of the line
as it appeared in the source blob. -/
theorem companion_line_whitespace_cex :
    run { parseBundle := fun s =>
            if s = "bundle1" then
              some { media_type := "application/vnd.dev.sigstore.bundle+json;version=0.3"
                     content := .MessageSignature
                       { message_digest := { algorithm := "SHA2_256", digest := "AQ==" } } }
            else none
          parseInToto := fun _ => none
          sha256 := fun _ => [1] }
      [{ name := "a.zip", content := [65] }] (some "  bundle1") =
      .ok { artifacts := [("a.zip", [65])]
            sigstores := [("a.zip.sigstore.json", "bundle1")] }
    ∧ (splitLines ("  bundle1" : String).data).map String.mk = ["  bundle1"]
    ∧ ("bundle1" : String) ≠ "  bundle1" := by
  refine ⟨by rfl, by rfl, by decide⟩

/-- C2 as amended: for every companion file emitted by a successful run
there is a source blob line and an initially pending artifact entry such
that the trimmed line extracts a digest set containing that artifact's
digest (it is the matching attestation line), the companion is named
`<that-artifact-file-name>.sigstore.json`, and its content is the exact
bytes of that matching line after removal of its leading and trailing
whitespace (the loop trims every line before matching and writes the
trimmed line). -/
theorem companion_contains_trimmed_line (ctx : ExtCtx) (arts : List Artifact)
    (att : String) (d : Dest)
    (hr : run ctx arts (some att) = .ok d) :
    ∀ p ∈ d.sigstores, ∃ cs ∈ splitLines att.data,
      ∃ kv ∈ buildHashes ctx.sha256 arts, ∃ hs,
        String.mk (trimChars cs) ≠ ""
        ∧ hashes_from_sigstore_bundle ctx (String.mk (trimChars cs)) = .ok hs
        ∧ kv.1 ∈ hs
        ∧ p = (kv.2 ++ ".sigstore.json", String.mk (trimChars cs)) := by
  intro p hp
  simp only [run] at hr
  cases hq : processLines ctx { pending := buildHashes ctx.sha256 arts, sigstores := [] }
      (attLines att) with
  | error e =>
    rw [hq] at hr
    cases hr
  | ok st =>
    rw [hq] at hr
    have hr2 : (if st.pending = [] then
        (Except.ok { artifacts := arts.map (fun a => (a.name, a.content))
                     sigstores := st.sigstores } : Except RunError Dest)
      else .error (.notAttested (st.pending.map Prod.snd))) = .ok d := hr
    by_cases hpe : st.pending = []
    · rw [if_pos hpe] at hr2
      cases hr2
      have hfrom := processLines_sigstores_from ctx (attLines att) _ st hq p hp
      rcases hfrom with h2 | ⟨kv, hkv, line, hline, hne, ⟨hs, hbs, hkvh⟩, hp2⟩
      · simp at h2
      · rw [attLines, List.mem_map] at hline
        obtain ⟨cs, hcs, hcs2⟩ := hline
        have hcs3 : String.mk (trimChars cs) = line := hcs2
        refine ⟨cs, hcs, kv, hkv, hs, ?_, ?_, hkvh, ?_⟩
        · rw [hcs3]
          exact hne
        · rw [hcs3]
          exact hbs
        · rw [hp2, hcs3]
    · rw [if_neg hpe] at hr2
      cases hr2

/-- Witness for the amended C2, on the counterexample input: the artifact
digest entry, the matching line and the companion name and content are all
exhibited. -/
theorem companion_contains_trimmed_line_witness :
    ∃ cs ∈ splitLines ("  bundle1" : String).data,
      ∃ kv ∈ buildHashes (fun _ => ([1] : ByteSeq)) [{ name := "a.zip", content := [65] }],
        ∃ hs,
          String.mk (trimChars cs) ≠ ""
          ∧ hashes_from_sigstore_bundle
              { parseBundle := fun s =>
                  if s = "bundle1" then
                    some { media_type := "application/vnd.dev.sigstore.bundle+json;version=0.3"
                           content := .MessageSignature
                             { message_digest := { algorithm := "SHA2_256", digest := "AQ==" } } }
                  else none
                parseInToto := fun _ => none
                sha256 := fun _ => [1] }
              (String.mk (trimChars cs)) = .ok hs
          ∧ kv.1 ∈ hs
          ∧ (("a.zip.sigstore.json", "bundle1") : String × String) =
              (kv.2 ++ ".sigstore.json", String.mk (trimChars cs)) := by
  have h := companion_contains_trimmed_line
    { parseBundle := fun s =>
        if s = "bundle1" then
          some { media_type := "application/vnd.dev.sigstore.bundle+json;version=0.3"
                 content := .MessageSignature
                   { message_digest := { algorithm := "SHA2_256", digest := "AQ==" } } }
        else none
      parseInToto := fun _ => none
      sha256 := fun _ => [1] }
    [{ name := "a.zip", content := [65] }] "  bundle1"
    { artifacts := [("a.zip", [65])], sigstores := [("a.zip.sigstore.json", "bundle1")] }
    rfl ("a.zip.sigstore.json", "bundle1") (List.mem_singleton.mpr rfl)
  exact h

/-- C8: the Pending Set only shrinks. Each matching step over one digest
either leaves the state unchanged (the digest is absent) or removes exactly
the matched entry, after which that digest is no longer present; and across
every successfully processed sequence of lines the final Pending Set is a
sublist of the initial one, so no entry is ever added or replaced. -/
theorem pending_set_only_shrinks :
    (∀ (st : RecState) (line : String) (h : ByteSeq),
      List.Sublist (processHash st line h).pending st.pending
      ∧ (keysNodup st.pending →
          (processHash st line h = st ∧ lookupA st.pending h = none) ∨
          ∃ v, (h, v) ∈ st.pending ∧
            (processHash st line h).pending = (mapRemove st.pending h).2 ∧
            lookupA (processHash st line h).pending h = none))
    ∧ ∀ (ctx : ExtCtx) (st st2 : RecState) (lines : List String),
        processLines ctx st lines = .ok st2 →
        List.Sublist st2.pending st.pending := by
  constructor
  · intro st line h
    refine ⟨processHash_pending_sublist st line h, ?_⟩
    intro hk
    cases hl : lookupA st.pending h with
    | none => exact Or.inl ⟨processHash_lookup_none st line h hl, rfl⟩
    | some v =>
      right
      refine ⟨v, ?_, ?_, ?_⟩
      · apply mapRemove_some_mem (m := st.pending) (k := h)
        rw [mapRemove_fst, hl]
      · rw [processHash_lookup_some st line h v hl]
      · rw [processHash_lookup_some st line h v hl]
        exact mapRemove_snd_lookup_none hk
  · intro ctx st st2 lines hp
    exact processLines_pending_sublist ctx lines st st2 hp

/-- Witness for C8: processing one matching line shrinks a one-entry
Pending Set to the empty one. -/
theorem pending_set_only_shrinks_witness :
    List.Sublist
      ({ pending := [], sigstores := [("a.zip.sigstore.json", "L")] } : RecState).pending
      ({ pending := [([1], "a.zip")], sigstores := [] } : RecState).pending :=
  pending_set_only_shrinks.2
    { parseBundle := fun s =>
        if s = "L" then
          some { media_type := "application/vnd.dev.sigstore.bundle+json;version=0.3"
                 content := .MessageSignature
                   { message_digest := { algorithm := "SHA2_256", digest := "AQ==" } } }
        else none
      parseInToto := fun _ => none
      sha256 := fun _ => [1] }
    { pending := [([1], "a.zip")], sigstores := [] }
    { pending := [], sigstores := [("a.zip.sigstore.json", "L")] }
    ["L"] rfl

/-- C9: when two artifacts share a content digest, the Pending Set keeps
only the name of the artifact inserted later (insert replaces the entry),
and the earlier artifact name can then never be matched (no companion file
bearing its name is produced) nor be reported in the unmatched-artifacts
error. -/
theorem duplicate_digest_last_write_wins (ctx : ExtCtx) (a1 a2 : Artifact)
    (hd : ctx.sha256 a1.content = ctx.sha256 a2.content)
    (hn : a1.name ≠ a2.name) :
    buildHashes ctx.sha256 [a1, a2] = [(ctx.sha256 a2.content, a2.name)]
    ∧ (∀ att dst, run ctx [a1, a2] (some att) = .ok dst →
        ∀ p ∈ dst.sigstores, p.1 ≠ a1.name ++ ".sigstore.json")
    ∧ ∀ att names, run ctx [a1, a2] (some att) = .error (.notAttested names) →
        a1.name ∉ names := by
  have hbuild : buildHashes ctx.sha256 [a1, a2] = [(ctx.sha256 a2.content, a2.name)] := by
    simp [buildHashes, mapInsert, hd]
  have hne_append : a2.name ++ ".sigstore.json" ≠ a1.name ++ ".sigstore.json" := by
    intro heq
    apply hn
    have h1 := congrArg String.data heq
    rw [String.data_append, String.data_append] at h1
    exact (String.ext (List.append_cancel_right h1)).symm
  refine ⟨hbuild, ?_, ?_⟩
  · intro att dst hr p hp heq
    simp only [run] at hr
    cases hq : processLines ctx { pending := buildHashes ctx.sha256 [a1, a2], sigstores := [] }
        (attLines att) with
    | error e =>
      rw [hq] at hr
      cases hr
    | ok st =>
      rw [hq] at hr
      have hr2 : (if st.pending = [] then
          (Except.ok { artifacts := [a1, a2].map (fun a => (a.name, a.content))
                       sigstores := st.sigstores } : Except RunError Dest)
        else .error (.notAttested (st.pending.map Prod.snd))) = .ok dst := hr
      by_cases hpe : st.pending = []
      · rw [if_pos hpe] at hr2
        cases hr2
        rcases processLines_sigstores_from ctx (attLines att) _ st hq p hp with
          h2 | ⟨kv, hkv, line, _, _, _, hp2⟩
        · simp at h2
        · rw [hbuild] at hkv
          have hkveq : kv = (ctx.sha256 a2.content, a2.name) := List.mem_singleton.mp hkv
          rw [hkveq] at hp2
          rw [hp2] at heq
          exact hne_append heq
      · rw [if_neg hpe] at hr2
        cases hr2
  · intro att names hr hmem
    simp only [run] at hr
    cases hq : processLines ctx { pending := buildHashes ctx.sha256 [a1, a2], sigstores := [] }
        (attLines att) with
    | error e =>
      rw [hq] at hr
      have hr2 : (Except.error (RunError.extraction e) : Except RunError Dest) =
          .error (.notAttested names) := hr
      simp at hr2
    | ok st =>
      rw [hq] at hr
      have hr2 : (if st.pending = [] then
          (Except.ok { artifacts := [a1, a2].map (fun a => (a.name, a.content))
                       sigstores := st.sigstores } : Except RunError Dest)
        else .error (.notAttested (st.pending.map Prod.snd))) = .error (.notAttested names) := hr
      by_cases hpe : st.pending = []
      · rw [if_pos hpe] at hr2
        cases hr2
      · rw [if_neg hpe] at hr2
        injection hr2 with h4
        injection h4 with h5
        rw [← h5] at hmem
        rw [List.mem_map] at hmem
        obtain ⟨kv, hkv, hkv2⟩ := hmem
        have hkv3 := (processLines_pending_sublist ctx (attLines att) _ st hq).mem hkv
        rw [hbuild] at hkv3
        have hkveq : kv = (ctx.sha256 a2.content, a2.name) := List.mem_singleton.mp hkv3
        rw [hkveq] at hkv2
        exact hn hkv2.symm

/-- Witness for C9: two artifacts with equal digests; only the later one is
kept in the Pending Set, only it gets a companion, and only it is reported
unmatched. -/
theorem duplicate_digest_last_write_wins_witness :
    buildHashes (fun _ => [9])
      [{ name := "a.zip", content := [0] }, { name := "b.zip", content := [1] }] =
      [([9], "b.zip")]
    ∧ ("b.zip.sigstore.json", "L").1 ≠ ("a.zip" : String) ++ ".sigstore.json"
    ∧ ("a.zip" : String) ∉ ["b.zip"] := by
  have h := duplicate_digest_last_write_wins
    { parseBundle := fun s =>
        if s = "L" then
          some { media_type := "application/vnd.dev.sigstore.bundle+json;version=0.3"
                 content := .MessageSignature
                   { message_digest := { algorithm := "SHA2_256", digest := "CQ==" } } }
        else none
      parseInToto := fun _ => none
      sha256 := fun _ => [9] }
    { name := "a.zip", content := [0] } { name := "b.zip", content := [1] }
    rfl (by decide)
  refine ⟨h.1, ?_, h.2.2 "" ["b.zip"] rfl⟩
  exact h.2.1 "L"
    { artifacts := [("a.zip", [0]), ("b.zip", [1])]
      sigstores := [("b.zip.sigstore.json", "L")] }
    rfl ("b.zip.sigstore.json", "L") (List.mem_singleton.mpr rfl)

/-- Processing the digests of one record against a Pending Set that
contains all of them (with distinct keys) removes every one of them, keeps
everything else, and emits exactly one companion per digest. -/
theorem processRecordHashes_matches_all (line : String) (ds : List ByteSeq) :
    ∀ st : RecState, keysNodup st.pending → ds.Nodup →
      (∀ d ∈ ds, ∃ v, (d, v) ∈ st.pending) →
      (∀ d ∈ ds, lookupA (processRecordHashes st line ds).pending d = none)
      ∧ (∀ p ∈ st.pending, p.1 ∉ ds → p ∈ (processRecordHashes st line ds).pending)
      ∧ (processRecordHashes st line ds).sigstores.length = st.sigstores.length + ds.length
      ∧ ∀ d v, d ∈ ds → (d, v) ∈ st.pending →
          (v ++ ".sigstore.json", line) ∈ (processRecordHashes st line ds).sigstores := by
  induction ds with
  | nil =>
    intro st hk hnd hm
    refine ⟨?_, ?_, by simp [processRecordHashes_nil], ?_⟩
    · intro d hd
      simp at hd
    · intro p hp _
      exact hp
    · intro d v hd
      simp at hd
  | cons d0 rest ih =>
    intro st hk hnd hm
    obtain ⟨v0, hv0⟩ := hm d0 (List.mem_cons_self _ _)
    have hl0 : lookupA st.pending d0 = some v0 := lookupA_mem hk hv0
    have hstep := processHash_lookup_some st line d0 v0 hl0
    have hpend1 : (processHash st line d0).pending = (mapRemove st.pending d0).2 := by
      rw [hstep]
    have hsig1 : (processHash st line d0).sigstores =
        st.sigstores ++ [(v0 ++ ".sigstore.json", line)] := by
      rw [hstep]
    have hsub1 : List.Sublist (processHash st line d0).pending st.pending :=
      processHash_pending_sublist st line d0
    have hk1 : keysNodup (processHash st line d0).pending := keysNodup_of_sublist hsub1 hk
    have hnone1 : lookupA (processHash st line d0).pending d0 = none := by
      rw [hpend1]
      exact mapRemove_snd_lookup_none hk
    have hndrest : rest.Nodup := (List.nodup_cons.mp hnd).2
    have hd0rest : d0 ∉ rest := (List.nodup_cons.mp hnd).1
    have hmem1 : ∀ p ∈ st.pending, p.1 ≠ d0 → p ∈ (processHash st line d0).pending := by
      intro p hp hne
      rw [hpend1]
      exact mapRemove_snd_mem_of hp hne
    have hm1 : ∀ d ∈ rest, ∃ v, (d, v) ∈ (processHash st line d0).pending := by
      intro d hdr
      obtain ⟨v, hv⟩ := hm d (List.mem_cons_of_mem _ hdr)
      refine ⟨v, hmem1 _ hv ?_⟩
      intro he
      exact hd0rest (he ▸ hdr)
    obtain ⟨ihA, ihB, ihC, ihD⟩ := ih (processHash st line d0) hk1 hndrest hm1
    rw [processRecordHashes_cons]
    refine ⟨?_, ?_, ?_, ?_⟩
    · intro d hd
      rcases List.mem_cons.mp hd with he | hdr
      · rw [he]
        have hsub2 := processRecordHashes_pending_sublist line rest (processHash st line d0)
        apply lookupA_none_iff.mpr
        intro hmem
        have h3 := (hsub2.map Prod.fst).mem hmem
        exact absurd h3 (lookupA_none_iff.mp hnone1)
      · exact ihA d hdr
    · intro p hp hnotin
      have h1 : p.1 ≠ d0 := fun he => hnotin (by rw [he]; exact List.mem_cons_self _ _)
      have h2 : p.1 ∉ rest := fun hin => hnotin (List.mem_cons_of_mem _ hin)
      exact ihB p (hmem1 p hp h1) h2
    · rw [ihC, hsig1, List.length_append]
      simp
      omega
    · intro d v hd hv
      rcases List.mem_cons.mp hd with he | hdr
      · subst he
        have hveq : v = v0 := keysNodup_mem_unique hk hv hv0
        subst hveq
        apply processRecordHashes_sigstores_mono
        rw [hsig1]
        exact List.mem_append_right _ (List.mem_singleton.mpr rfl)
      · have h1 : (d, v).1 ≠ d0 := by
          intro he
          exact hd0rest (he ▸ hdr)
        exact ihD d v hdr (hmem1 _ hv h1)

/-- C3: a well-formed Envelope record whose in-toto statement lists N
subjects whose digests match N distinct entries of the Pending Set
extracts exactly those N digests, and processing that one record line
removes all N digests from the Pending Set (and nothing else) while
emitting one companion file per matched artifact. -/
theorem envelope_record_matches_all_subjects (pi2 : ByteSeq → Option InTotoStatement)
    (dsse : DsseEnvelope) (stmt : InTotoStatement) (pb : ByteSeq)
    (st : RecState) (line : String) (ds : List ByteSeq)
    (hpt : dsse.payload_type = "application/vnd.in-toto+json")
    (hb64 : base64Decode dsse.payload = some pb)
    (hpi : pi2 pb = some stmt)
    (hty : stmt.type_ = "https://in-toto.io/Statement/v1")
    (hsub : stmt.subject.mapM (fun s => hexDecode s.digest.sha256) = some ds)
    (hk : keysNodup st.pending)
    (hnd : ds.Nodup)
    (hm : ∀ d ∈ ds, ∃ v, (d, v) ∈ st.pending) :
    hashesFromBundle pi2
      { media_type := "application/vnd.dev.sigstore.bundle+json;version=0.3"
        content := .DsseEnvelope dsse } = .ok ds
    ∧ (∀ d ∈ ds, lookupA (processRecordHashes st line ds).pending d = none)
    ∧ (∀ p ∈ st.pending, p.1 ∉ ds → p ∈ (processRecordHashes st line ds).pending)
    ∧ (processRecordHashes st line ds).sigstores.length = st.sigstores.length + ds.length
    ∧ ∀ d v, d ∈ ds → (d, v) ∈ st.pending →
        (v ++ ".sigstore.json", line) ∈ (processRecordHashes st line ds).sigstores := by
  have hrec := processRecordHashes_matches_all line ds st hk hnd hm
  refine ⟨?_, hrec.1, hrec.2.1, hrec.2.2.1, hrec.2.2.2⟩
  have hsub2 : List.mapM.loop (fun s => hexDecode s.digest.sha256) stmt.subject [] = some ds :=
    hsub
  simp +decide [hashesFromBundle, hpt, hb64, hpi, hty, hsub, hsub2]

/-- Witness for C3: one Envelope record with two subjects matched against a
two-entry Pending Set clears both entries and emits both companions. -/
theorem envelope_record_matches_all_subjects_witness :
    hashesFromBundle
      (fun _ => some { type_ := "https://in-toto.io/Statement/v1"
                       subject := [{ digest := { sha256 := "01" } },
                                   { digest := { sha256 := "02" } }] })
      { media_type := "application/vnd.dev.sigstore.bundle+json;version=0.3"
        content := .DsseEnvelope
          { payload := "", payload_type := "application/vnd.in-toto+json" } } =
      .ok [[1], [2]]
    ∧ lookupA (processRecordHashes
        { pending := [([1], "a.zip"), ([2], "b.zip")], sigstores := [] } "L"
        [[1], [2]]).pending [1] = none
    ∧ (processRecordHashes
        { pending := [([1], "a.zip"), ([2], "b.zip")], sigstores := [] } "L"
        [[1], [2]]).sigstores.length = ([] : List (String × String)).length + 2
    ∧ ("b.zip" ++ ".sigstore.json", "L") ∈ (processRecordHashes
        { pending := [([1], "a.zip"), ([2], "b.zip")], sigstores := [] } "L"
        [[1], [2]]).sigstores := by
  have h := envelope_record_matches_all_subjects
    (fun _ => some { type_ := "https://in-toto.io/Statement/v1"
                     subject := [{ digest := { sha256 := "01" } },
                                 { digest := { sha256 := "02" } }] })
    { payload := "", payload_type := "application/vnd.in-toto+json" }
    { type_ := "https://in-toto.io/Statement/v1"
      subject := [{ digest := { sha256 := "01" } }, { digest := { sha256 := "02" } }] }
    [] { pending := [([1], "a.zip"), ([2], "b.zip")], sigstores := [] } "L" [[1], [2]]
    rfl rfl rfl rfl rfl
    (by
      show (([([1], "a.zip"), ([2], "b.zip")] : List (ByteSeq × String)).map Prod.fst).Nodup
      decide)
    (by decide)
    (by
      intro d hd
      rcases List.mem_cons.mp hd with he | hd2
      · exact ⟨"a.zip", by rw [he]; exact List.mem_cons_self _ _⟩
      · have he2 : d = [2] := List.mem_singleton.mp hd2
        exact ⟨"b.zip", by
          rw [he2]
          exact List.mem_cons_of_mem _ (List.mem_cons_self _ _)⟩)
  exact ⟨h.1, h.2.1 [1] (List.mem_cons_self _ _),
    h.2.2.2.1,
    h.2.2.2.2 [2] "b.zip" (List.mem_cons_of_mem _ (List.mem_cons_self _ _))
      (List.mem_cons_of_mem _ (List.mem_cons_self _ _))⟩

end GhaPrepareArtifacts
